import Mathlib

/-!
Verification of the Hanoi speedrun app's puzzle engine.

The definitions below are a shallow embedding of the Rust source:
`src/hanoi.rs` (the `HanoiGame` state machine and the `frame_stewart`
solver), `src/highscores.rs` (`Header`, `Score`, `save_score`),
`src/play.rs` (`full_move`, `undo_move`, `soft_reset`) and
`src/util.rs` (`consistency_score`).

Conventions of the embedding:
* `usize` is modelled as `Nat`; disk values in real states are at most
  `MAX_DISKS = 64`, far below `USIZE_MAX = 2 ^ 64 - 1`, so no wrapping
  arithmetic occurs anywhere in the embedded code.
* A pole (`ArrayVec<usize, MAX_DISKS>`) is a `List Nat` whose last
  element is the top of the stack, matching `Vec::push`/`pop`/`last`.
* The fixed array `[ArrayVec; MAX_POLES]` is a `List (List Nat)` of
  length `MAX_POLES`; indexing uses `List.getD` and `List.set`.
  Rust panics on an out-of-range pole index, so theorems that describe
  a mutation carry the corresponding in-range hypotheses.
* `&mut self` methods become functions `State → State` (or
  `State → Bool × State` for `shift`, which also returns a flag).
* `Duration` and `Instant` are modelled as `Nat` (monotone time);
  `Instant::now()` becomes an explicit `now` parameter and
  `start.elapsed()` becomes `now - start`.
-/

def MAX_DISKS : Nat := 64

def MAX_POLES : Nat := 16

/-- `usize::MAX` for the 64-bit targets the app is built for. -/
def USIZE_MAX : Nat := 2 ^ 64 - 1

/-- `Move = (Duration, usize, usize)` from `src/highscores.rs`:
elapsed time since run start, source pole, destination pole. -/
abbrev MoveEntry := Nat × Nat × Nat

/-- The `HanoiGame` struct from `src/hanoi.rs`. -/
structure HanoiGame where
  poles : List (List Nat)
  poles_count : Nat
  disks_count : Nat
  start_pole : Nat
  end_pole : Option Nat
  illegal_moves : Bool
  moves_history : List MoveEntry
deriving DecidableEq

/-- The pole array after a successful `shift`: pop the source pole,
push the popped disk `d` onto the destination pole. -/
def shiftPoles (g : HanoiGame) (src dst d : Nat) : List (List Nat) :=
  (g.poles.set src ((g.poles.getD src []).dropLast)).set dst ((g.poles.getD dst []) ++ [d])

/-- `HanoiGame::shift` (`src/hanoi.rs` lines 44-54): attempt to move the
top disk of pole `src` onto pole `dst`; returns the success flag and the
(possibly unchanged) state.  Mirrors the source line by line: self-moves
fail; an empty source fails; otherwise the move happens iff
`illegal_moves` is set or the moved disk is smaller than the top of the
destination, where an empty destination reads as `usize::MAX`. -/
def HanoiGame.shift (g : HanoiGame) (src dst : Nat) : Bool × HanoiGame :=
  if src = dst then (false, g)
  else
    match (g.poles.getD src []).getLast? with
    | none => (false, g)
    | some from_last =>
      if g.illegal_moves || decide (from_last < ((g.poles.getD dst []).getLast?.getD USIZE_MAX)) then
        (true, { g with poles := shiftPoles g src dst from_last })
      else (false, g)

/-- The stack `(1..=disks_count).rev()` pushes onto the start pole:
`[D, D-1, ..., 1]` bottom-to-top.  Shared by `reset` and `finished`. -/
def solvedStack (disks : Nat) : List Nat :=
  (List.range' 1 disks).reverse

/-- `HanoiGame::reset` (`src/hanoi.rs` lines 55-62): clear the history,
clear every pole, then push disks `disks_count, ..., 1` onto the start
pole (1-based index `start_pole`). -/
def HanoiGame.reset (g : HanoiGame) : HanoiGame :=
  { g with moves_history := [], poles := (List.replicate MAX_POLES ([] : List Nat)).set (g.start_pole - 1) (solvedStack g.disks_count) }

/-- `HanoiGame::finished` (`src/hanoi.rs` lines 71-84): with an explicit
end pole, that pole must equal the solved stack; otherwise some pole in
`0..poles_count` other than the start pole must. -/
def HanoiGame.finished (g : HanoiGame) : Bool :=
  let e := solvedStack g.disks_count
  match g.end_pole with
  | some endPole => g.poles.getD (endPole - 1) [] == e
  | none =>
    (List.range g.poles_count).any (fun i =>
      (g.start_pole - 1 != i) && (g.poles.getD i [] == e))

/-- Top disk of pole `i` (the `last()` of the pole's vector). -/
def topDisk (g : HanoiGame) (i : Nat) : Option Nat :=
  (g.poles.getD i []).getLast?

/-- The legality reading of the spec: an occupied destination accepts a
strictly smaller disk, an empty destination accepts any disk. -/
def topAccepts (t : Option Nat) (d : Nat) : Bool :=
  match t with
  | none => true
  | some x => decide (d < x)

/-- C1: for every state and pole pair, `shift` fails (false, unchanged)
on self-moves and on an empty source; otherwise, with the illegal-moves
flag set or the moved disk accepted by the destination top (an empty
destination accepts any disk), it pops the source top, pushes it onto
the destination and returns true; in every remaining case it fails with
no mutation. -/
theorem shift_spec (g : HanoiGame) (src dst : Nat)
    (hsrc : src < g.poles.length) (hdst : dst < g.poles.length)
    (hdisk : ∀ p ∈ g.poles, ∀ d ∈ p, d < USIZE_MAX) :
    (src = dst → g.shift src dst = (false, g)) ∧
    (topDisk g src = none → g.shift src dst = (false, g)) ∧
    (∀ d, src ≠ dst → topDisk g src = some d →
      ((g.illegal_moves = true ∨ topAccepts (topDisk g dst) d = true) →
        g.shift src dst = (true, { g with poles := shiftPoles g src dst d })) ∧
      (g.illegal_moves = false → topAccepts (topDisk g dst) d = false →
        g.shift src dst = (false, g))) := by
  refine ⟨?_, ?_, ?_⟩
  · intro h
    unfold HanoiGame.shift
    rw [if_pos h]
  · intro h
    unfold topDisk at h
    unfold HanoiGame.shift
    by_cases hq : src = dst
    · rw [if_pos hq]
    · rw [if_neg hq, h]
  · intro d hne htop
    unfold topDisk at htop
    have hmem : d ∈ g.poles.getD src [] := List.mem_of_getLast?_eq_some htop
    have hin : g.poles.getD src [] ∈ g.poles := by
      rw [List.getD_eq_getElem?_getD, List.getElem?_eq_getElem hsrc]
      exact List.getElem_mem hsrc
    have hdlt : d < USIZE_MAX := hdisk _ hin _ hmem
    constructor
    · intro hcond
      have hc : (g.illegal_moves ||
          decide (d < ((g.poles.getD dst []).getLast?.getD USIZE_MAX))) = true := by
        rcases hcond with h1 | h1
        · simp [h1]
        · unfold topAccepts topDisk at h1
          rcases hlast : (g.poles.getD dst []).getLast? with _ | x
          · simp [hlast, hdlt]
          · rw [hlast] at h1
            simp only [decide_eq_true_eq] at h1
            simp [hlast, h1]
      unfold HanoiGame.shift
      rw [if_neg hne, htop]
      dsimp only
      rw [hc]
      simp
    · intro hil hacc
      unfold topAccepts topDisk at hacc
      have hc : (g.illegal_moves ||
          decide (d < ((g.poles.getD dst []).getLast?.getD USIZE_MAX))) = false := by
        rcases hlast : (g.poles.getD dst []).getLast? with _ | x
        · rw [hlast] at hacc
          simp at hacc
        · rw [hlast] at hacc
          simp only [decide_eq_false_iff_not] at hacc
          simp [hil, hlast, hacc]
      unfold HanoiGame.shift
      rw [if_neg hne, htop]
      dsimp only
      rw [hc]
      simp

/-- Witness for C1 on a concrete 3-pole, 3-disk reset-like state:
moving from the start pole to an empty pole succeeds. -/
theorem shift_spec_witness :
    (let g : HanoiGame :=
      { poles := [[3, 2, 1], [], []] ++ List.replicate 13 [],
        poles_count := 3, disks_count := 3, start_pole := 1,
        end_pole := none, illegal_moves := false, moves_history := [] }
     g.shift 0 2 = (true, { g with poles := shiftPoles g 0 2 1 })) := by
  exact ((shift_spec _ 0 2 (by decide) (by decide) (by decide)).2.2 1
    (by decide) (by decide)).1 (Or.inr (by decide))

/-- A pole read as bottom-to-top disk sizes is strictly descending:
every disk is strictly larger than the one directly above it. -/
def descending (p : List Nat) : Prop :=
  List.Chain' (· > ·) p

/-- Every pole of the state is strictly descending bottom-to-top. -/
def allDescending (g : HanoiGame) : Prop :=
  ∀ p ∈ g.poles, descending p

/-- Run a whole sequence of `shift` calls, keeping only the states
(successful calls mutate, failed ones return the state unchanged). -/
def movesApply (g : HanoiGame) (ms : List (Nat × Nat)) : HanoiGame :=
  ms.foldl (fun s m => (s.shift m.1 m.2).2) g

theorem shift_illegal_moves (g : HanoiGame) (a b : Nat) :
    ((g.shift a b).2).illegal_moves = g.illegal_moves := by
  unfold HanoiGame.shift
  by_cases hab : a = b
  · rw [if_pos hab]
  · rw [if_neg hab]
    cases htop : (g.poles.getD a []).getLast?
    · rfl
    · dsimp only
      split <;> rfl

theorem getD_mem_or_nil (l : List (List Nat)) (i : Nat) :
    l.getD i [] ∈ l ∨ l.getD i [] = [] := by
  by_cases h : i < l.length
  · left
    rw [List.getD_eq_getElem?_getD, List.getElem?_eq_getElem h]
    exact List.getElem_mem h
  · right
    rw [List.getD_eq_getElem?_getD, List.getElem?_eq_none (by omega)]
    rfl

theorem descending_getD {g : HanoiGame} (hinv : ∀ p ∈ g.poles, descending p)
    (i : Nat) : descending (g.poles.getD i []) := by
  rcases getD_mem_or_nil g.poles i with h | h
  · exact hinv _ h
  · rw [h]
    exact List.chain'_nil

theorem shift_preserves_descending (g : HanoiGame) (a b : Nat)
    (hill : g.illegal_moves = false) (hinv : ∀ p ∈ g.poles, descending p) :
    ∀ p ∈ (g.shift a b).2.poles, descending p := by
  unfold HanoiGame.shift
  by_cases hab : a = b
  · rw [if_pos hab]
    exact hinv
  · rw [if_neg hab]
    cases htop : (g.poles.getD a []).getLast? with
    | none => exact hinv
    | some d =>
      rw [hill]
      dsimp only
      by_cases hlt : d < (g.poles.getD b []).getLast?.getD USIZE_MAX
      · rw [if_pos (by rw [Bool.false_or]; exact decide_eq_true hlt)]
        intro p hp
        dsimp only at hp
        unfold shiftPoles at hp
        rcases List.mem_or_eq_of_mem_set hp with hp1 | rfl
        · rcases List.mem_or_eq_of_mem_set hp1 with hp2 | rfl
          · exact hinv _ hp2
          · exact (descending_getD hinv a).init
        · refine List.chain'_append.mpr ⟨descending_getD hinv b, List.chain'_singleton d, ?_⟩
          intro x hx y hy
          simp only [List.head?_cons, Option.mem_def, Option.some.injEq] at hy
          subst hy
          cases hlast : (g.poles.getD b []).getLast? with
          | none =>
            rw [hlast] at hx
            simp at hx
          | some x0 =>
            rw [hlast] at hx
            simp only [Option.mem_def, Option.some.injEq] at hx
            subst hx
            rw [hlast] at hlt
            exact hlt
      · rw [if_neg (by rw [Bool.false_or]; simp only [decide_eq_true_eq]; exact hlt)]
        exact hinv

theorem descending_solvedStack (D : Nat) : descending (solvedStack D) := by
  unfold descending solvedStack
  refine List.Pairwise.chain' ?_
  rw [List.pairwise_reverse]
  have h := List.pairwise_lt_range' 1 D
  exact h.imp (fun hab => hab)

theorem reset_allDescending (g : HanoiGame) :
    ∀ p ∈ (g.reset).poles, descending p := by
  intro p hp
  unfold HanoiGame.reset at hp
  dsimp only at hp
  rcases List.mem_or_eq_of_mem_set hp with h | rfl
  · rw [List.eq_of_mem_replicate h]
    exact List.chain'_nil
  · exact descending_solvedStack _

theorem movesApply_preserves_descending :
    ∀ (ms : List (Nat × Nat)) (s : HanoiGame), s.illegal_moves = false →
      (∀ p ∈ s.poles, descending p) → ∀ p ∈ (movesApply s ms).poles, descending p := by
  intro ms
  induction ms with
  | nil => intro s _ hinv; exact hinv
  | cons m rest ih =>
    intro s hill hinv
    exact ih _ (by rw [shift_illegal_moves]; exact hill)
      (shift_preserves_descending s m.1 m.2 hill hinv)

/-- C2: with the illegal-moves flag off, starting from the state produced
by `reset`, after any sequence of `shift` calls (only the successful ones
mutate state) every pole's contents are strictly descending in disk size
from bottom to top. -/
theorem reset_shift_legality_invariant (g : HanoiGame) (ms : List (Nat × Nat))
    (hill : g.illegal_moves = false) :
    allDescending (movesApply (g.reset) ms) := by
  exact movesApply_preserves_descending ms g.reset hill (reset_allDescending g)

/-- Witness for C2: a 3-disk game, with the classical 7-move optimal
solution plus a failing move thrown in, keeps all poles descending. -/
theorem reset_shift_legality_invariant_witness :
    allDescending (movesApply
      (HanoiGame.reset
        { poles := [], poles_count := 3, disks_count := 3, start_pole := 1,
          end_pole := none, illegal_moves := false, moves_history := [] })
      [(0, 2), (0, 1), (2, 1), (0, 1), (0, 2), (1, 0), (1, 2), (0, 2)]) := by
  exact reset_shift_legality_invariant _ _ rfl

/-- The multiset of all disks in play, across all poles. -/
def allDisks (g : HanoiGame) : Multiset Nat :=
  (g.poles.map Multiset.ofList).sum

/-- Case analysis of `shift`: it either fails with the state unchanged,
or pops some top disk `d` of the source and pushes it onto the
destination. -/
theorem shift_cases (g : HanoiGame) (a b : Nat) :
    (g.shift a b = (false, g)) ∨
    (∃ d, (g.poles.getD a []).getLast? = some d ∧ a ≠ b ∧
      (g.illegal_moves || decide (d < ((g.poles.getD b []).getLast?.getD USIZE_MAX))) = true ∧
      g.shift a b = (true, { g with poles := shiftPoles g a b d })) := by
  unfold HanoiGame.shift
  by_cases hab : a = b
  · left
    rw [if_pos hab]
  · cases htop : (g.poles.getD a []).getLast? with
    | none =>
      left
      rw [if_neg hab]
    | some d =>
      rw [if_neg hab]
      dsimp only
      cases hcond : (g.illegal_moves || decide (d < ((g.poles.getD b []).getLast?.getD USIZE_MAX))) with
      | false =>
        left
        simp
      | true =>
        right
        refine ⟨d, rfl, hab, hcond, ?_⟩
        simp

theorem sum_map_set (l : List (List Nat)) (i : Nat) (x : List Nat) (h : i < l.length) :
    ((l.set i x).map Multiset.ofList).sum + Multiset.ofList (l.getD i []) =
      (l.map Multiset.ofList).sum + Multiset.ofList x := by
  induction l generalizing i with
  | nil => simp at h
  | cons hd tl ih =>
    cases i with
    | zero =>
      simp only [List.set_cons_zero, List.map_cons, List.sum_cons, List.getD_cons_zero]
      abel
    | succ j =>
      have hj : j < tl.length := by simpa using h
      simp only [List.set_cons_succ, List.map_cons, List.sum_cons, List.getD_cons_succ]
      rw [add_assoc, ih j hj, ← add_assoc]

theorem cancel_shuffle {M : Type} [AddCancelCommMonoid M] (S SA Sfin pa pb dd : M)
    (h1 : SA + (pa + dd) = S + pa) (h2 : Sfin + pb = SA + (pb + dd)) : Sfin = S := by
  rw [add_comm pa dd, ← add_assoc] at h1
  have k3 : SA + dd = S := add_right_cancel h1
  rw [add_comm pb dd, ← add_assoc, k3] at h2
  exact add_right_cancel h2

/-- C9: every call to `shift`, successful or not and regardless of the
illegal-moves flag, preserves the multiset of disks across all poles: a
`false` return changes nothing, and a `true` return pops exactly the top
disk of the source and pushes it onto the destination. -/
theorem shift_preserves_disk_multiset (g : HanoiGame) (a b : Nat)
    (ha : a < g.poles.length) (hb : b < g.poles.length) :
    allDisks (g.shift a b).2 = allDisks g ∧
    ((g.shift a b).1 = false → (g.shift a b).2 = g) ∧
    ((g.shift a b).1 = true → ∃ d, topDisk g a = some d ∧
      (g.shift a b).2 = { g with poles := shiftPoles g a b d }) := by
  rcases shift_cases g a b with h | ⟨d, htop, hab, _, h⟩
  · rw [h]
    exact ⟨rfl, fun _ => rfl, fun hf => by simp at hf⟩
  · rw [h]
    refine ⟨?_, fun hf => by simp at hf, fun _ => ⟨d, htop, rfl⟩⟩
    unfold allDisks shiftPoles
    dsimp only
    have hpa : (g.poles.getD a [] : List Nat).dropLast ++ [d] = g.poles.getD a [] :=
      List.dropLast_append_getLast? d htop
    have hlenA : b < (g.poles.set a ((g.poles.getD a []).dropLast)).length := by
      simpa using hb
    have hgetA : (g.poles.set a ((g.poles.getD a []).dropLast)).getD b [] = g.poles.getD b [] := by
      rw [List.getD_eq_getElem?_getD, List.getElem?_set_ne hab, ← List.getD_eq_getElem?_getD]
    have h2 := sum_map_set (g.poles.set a ((g.poles.getD a []).dropLast)) b
      ((g.poles.getD b []) ++ [d]) hlenA
    rw [hgetA] at h2
    have h1 := sum_map_set g.poles a ((g.poles.getD a []).dropLast) ha
    have e1 : Multiset.ofList (g.poles.getD a []) =
        Multiset.ofList ((g.poles.getD a []).dropLast) + Multiset.ofList [d] := by
      conv_lhs => rw [← hpa]
      rw [← Multiset.coe_add]
    have e2 : Multiset.ofList ((g.poles.getD b []) ++ [d]) =
        Multiset.ofList (g.poles.getD b []) + Multiset.ofList [d] := by
      rw [← Multiset.coe_add]
    rw [e1] at h1
    rw [e2] at h2
    exact cancel_shuffle _ _ _ _ _ _ h1 h2

/-- Witness for C9 on a concrete state: a successful move preserves the
disk multiset. -/
theorem shift_preserves_disk_multiset_witness :
    (let g : HanoiGame :=
      { poles := [[3, 2, 1], [], []] ++ List.replicate 13 [],
        poles_count := 3, disks_count := 3, start_pole := 1,
        end_pole := none, illegal_moves := false, moves_history := [] }
     allDisks (g.shift 0 2).2 = allDisks g) := by
  exact (shift_preserves_disk_multiset _ 0 2 (by decide) (by decide)).1

/-- The solved sequence as the claim words it: `[D, D-1, ..., 1]`
bottom-to-top, i.e. entry `j` is `D - j`. -/
def solvedList (D : Nat) : List Nat :=
  (List.range D).map (fun j => D - j)

theorem solvedStack_eq_solvedList (D : Nat) : solvedStack D = solvedList D := by
  unfold solvedStack solvedList
  apply List.ext_getElem
  · simp
  · intro i h1 h2
    rw [List.getElem_reverse, List.getElem_map, List.getElem_range]
    rw [List.getElem_range']
    simp only [List.length_reverse, List.length_range'] at h1 ⊢
    omega

theorem reset_poles_getD_ne (g : HanoiGame) (i : Nat) (hne : g.start_pole - 1 ≠ i) :
    (g.reset).poles.getD i [] = [] := by
  unfold HanoiGame.reset
  dsimp only
  rw [List.getD_eq_getElem?_getD, List.getElem?_set_ne hne]
  by_cases hi : i < MAX_POLES
  · rw [List.getElem?_eq_getElem (by simpa using hi)]
    simp
  · rw [List.getElem?_eq_none (by simpa using hi)]
    rfl

/-- C4: `finished` is true iff, with a configured end pole, that pole
holds exactly the solved sequence `[D, ..., 1]`; with no end pole, iff
some pole other than the start pole holds it — so with `end_pole = none`
a freshly reset puzzle (the solved stack sits on the start pole) is
never reported finished. -/
theorem finished_spec (g : HanoiGame) (hD : 1 ≤ g.disks_count) :
    (∀ e, g.end_pole = some e →
      (g.finished = true ↔ g.poles.getD (e - 1) [] = solvedList g.disks_count)) ∧
    (g.end_pole = none →
      (g.finished = true ↔ ∃ i, i < g.poles_count ∧ i ≠ g.start_pole - 1 ∧
        g.poles.getD i [] = solvedList g.disks_count)) ∧
    (g.end_pole = none → (g.reset).finished = false) := by
  refine ⟨?_, ?_, ?_⟩
  · intro e he
    unfold HanoiGame.finished
    rw [he]
    dsimp only
    rw [beq_iff_eq, solvedStack_eq_solvedList]
  · intro hnone
    unfold HanoiGame.finished
    rw [hnone]
    dsimp only
    rw [List.any_eq_true]
    constructor
    · rintro ⟨i, hmem, hpred⟩
      rw [List.mem_range] at hmem
      rw [Bool.and_eq_true, bne_iff_ne, beq_iff_eq] at hpred
      exact ⟨i, hmem, Ne.symm hpred.1, by rw [← solvedStack_eq_solvedList]; exact hpred.2⟩
    · rintro ⟨i, hi, hne, heq⟩
      refine ⟨i, List.mem_range.mpr hi, ?_⟩
      rw [Bool.and_eq_true, bne_iff_ne, beq_iff_eq]
      exact ⟨Ne.symm hne, by rw [solvedStack_eq_solvedList]; exact heq⟩
  · intro hnone
    have hre : (g.reset).end_pole = g.end_pole := rfl
    unfold HanoiGame.finished
    rw [hre, hnone]
    dsimp only
    rw [List.any_eq_false]
    intro i hmem
    intro hpred
    rw [Bool.and_eq_true, bne_iff_ne, beq_iff_eq] at hpred
    obtain ⟨hne, heq⟩ := hpred
    have hrd : (g.reset).disks_count = g.disks_count := rfl
    rw [reset_poles_getD_ne g i hne] at heq
    have hlen := congrArg List.length heq
    rw [hrd] at hlen
    simp [solvedStack] at hlen
    omega

/-- Witness for C4: a finished-on-pole-3 state is recognized, and a
freshly reset any-end-pole game is not finished. -/
theorem finished_spec_witness :
    (let g : HanoiGame :=
      { poles := [[], [], [3, 2, 1]] ++ List.replicate 13 [],
        poles_count := 3, disks_count := 3, start_pole := 1,
        end_pole := none, illegal_moves := false, moves_history := [] }
     (g.finished = true ↔ ∃ i, i < g.poles_count ∧ i ≠ g.start_pole - 1 ∧
        g.poles.getD i [] = solvedList g.disks_count)) := by
  exact (finished_spec _ (by decide)).2.1 rfl

/-- C10: when the configured end pole equals the start pole, `finished`
already returns true immediately after `reset`, with zero moves made. -/
theorem finished_after_reset_end_eq_start (g : HanoiGame)
    (hend : g.end_pole = some g.start_pole)
    (hs2 : g.start_pole ≤ MAX_POLES) :
    (g.reset).moves_history = [] ∧ (g.reset).finished = true := by
  refine ⟨rfl, ?_⟩
  have hre : (g.reset).end_pole = g.end_pole := rfl
  unfold HanoiGame.finished
  rw [hre, hend]
  dsimp only
  have hpole : (g.reset).poles.getD (g.start_pole - 1) [] = solvedStack g.disks_count := by
    unfold HanoiGame.reset
    dsimp only
    rw [List.getD_eq_getElem?_getD, List.getElem?_set_self (by simp [MAX_POLES]; unfold MAX_POLES at hs2; omega)]
    rfl
  rw [hpole]
  exact beq_self_eq_true _

/-- Witness for C10: a concrete game with `end_pole = some start_pole`
is finished right after reset. -/
theorem finished_after_reset_end_eq_start_witness :
    (HanoiGame.reset
      { poles := [], poles_count := 3, disks_count := 4, start_pole := 2,
        end_pole := some 2, illegal_moves := false,
        moves_history := [(0, 0, 1)] }).moves_history = [] ∧
    (HanoiGame.reset
      { poles := [], poles_count := 3, disks_count := 4, start_pole := 2,
        end_pole := some 2, illegal_moves := false,
        moves_history := [(0, 0, 1)] }).finished = true := by
  exact finished_after_reset_end_eq_start _ rfl (by decide)

mutual

/-- `frame_stewart` from `src/hanoi.rs` lines 87-105.  The `#[cached]`
attribute on the Rust function memoizes it; memoization only affects
running time, not the computed value, so the embedding is the plain
recursion.  `none` models Rust's `None` ("no finite solution"). -/
def frame_stewart (disks poles : Nat) : Option Nat :=
  if disks = 0 then some 0
  else if disks = 1 then (if 1 < poles then some 1 else none)
  else if poles = 3 then some (2 ^ disks - 1)
  else if h : 3 < poles then fsLoop disks poles (by omega) 0 none
  else none
termination_by (poles, disks, 1, 0)

/-- The `for i in 0..disks` minimum-accumulating loop in the `poles > 3`
branch of `frame_stewart`; `mn` is the running minimum (`None` until a
candidate split succeeds). -/
def fsLoop (d p : Nat) (hp : 0 < p) (i : Nat) (mn : Option Nat) : Option Nat :=
  if hi : i < d then
    match frame_stewart i p, frame_stewart (d - i) (p - 1) with
    | some first, some second =>
      fsLoop d p hp (i + 1) (some (Option.elim mn (2 * first + second)
        (fun current => Nat.min (2 * first + second) current)))
    | _, _ => fsLoop d p hp (i + 1) mn
  else mn
termination_by (p, d, 0, d - i)

end

/-- The value of `frame_stewart`, defaulting to `0` when impossible. -/
def fsVal (d p : Nat) : Nat :=
  (frame_stewart d p).getD 0

/-- The candidate cost of splitting `d` disks at `k`: move `k` disks
aside with all `p` poles, the rest with `p - 1`, the `k` back. -/
def fsCand (d p k : Nat) : Nat :=
  2 * fsVal k p + fsVal (d - k) (p - 1)

theorem fs_zero (p : Nat) : frame_stewart 0 p = some 0 := by
  unfold frame_stewart
  simp

theorem fs_one (p : Nat) : frame_stewart 1 p = if 1 < p then some 1 else none := by
  unfold frame_stewart
  simp

theorem fs_three (d : Nat) : frame_stewart d 3 = some (2 ^ d - 1) := by
  match d with
  | 0 =>
    rw [fs_zero]
    norm_num
  | 1 =>
    rw [fs_one, if_pos (by omega)]
    norm_num
  | n + 2 =>
    unfold frame_stewart
    rw [if_neg (by omega), if_neg (by omega), if_pos rfl]

theorem fs_small (d p : Nat) (hp : p < 3) (hd : 1 < d) : frame_stewart d p = none := by
  unfold frame_stewart
  rw [if_neg (by omega), if_neg (by omega), if_neg (by omega), dif_neg (by omega)]

theorem fs_big (d p : Nat) (hd : 2 ≤ d) (hp : 3 < p) :
    frame_stewart d p = fsLoop d p (by omega) 0 none := by
  unfold frame_stewart
  rw [if_neg (by omega), if_neg (by omega), if_neg (by omega), dif_pos hp]

theorem fsLoop_stop (d p : Nat) (hp : 0 < p) (i : Nat) (mn : Option Nat) (h : ¬ i < d) :
    fsLoop d p hp i mn = mn := by
  unfold fsLoop
  rw [dif_neg h]

theorem fsLoop_step (d p : Nat) (hp : 0 < p) (i : Nat) (mn : Option Nat) (h : i < d) :
    fsLoop d p hp i mn =
      (match frame_stewart i p, frame_stewart (d - i) (p - 1) with
       | some first, some second =>
         fsLoop d p hp (i + 1) (some (Option.elim mn (2 * first + second)
           (fun current => Nat.min (2 * first + second) current)))
       | _, _ => fsLoop d p hp (i + 1) mn) := by
  conv_lhs => unfold fsLoop
  rw [dif_pos h]

theorem fs_some_val {d p : Nat} (h : ∃ v, frame_stewart d p = some v) :
    frame_stewart d p = some (fsVal d p) := by
  obtain ⟨v, hv⟩ := h
  unfold fsVal
  rw [hv]
  rfl

theorem fsLoop_spec (d p : Nat) (hp : 0 < p) :
    ∀ (n i m : Nat), d - i = n →
    (∀ k, i ≤ k → k < d → frame_stewart k p = some (fsVal k p) ∧
      frame_stewart (d - k) (p - 1) = some (fsVal (d - k) (p - 1))) →
    ∃ r, fsLoop d p hp i (some m) = some r ∧ r ≤ m ∧
      (r = m ∨ ∃ k, i ≤ k ∧ k < d ∧ r = fsCand d p k) ∧
      ∀ k, i ≤ k → k < d → r ≤ fsCand d p k := by
  intro n
  induction n with
  | zero =>
    intro i m hn _
    refine ⟨m, fsLoop_stop d p hp i (some m) (by omega), le_refl m, Or.inl rfl, ?_⟩
    intro k hik hkd
    omega
  | succ n ih =>
    intro i m hn hall
    have hi : i < d := by omega
    rw [fsLoop_step d p hp i (some m) hi]
    obtain ⟨h1, h2⟩ := hall i (le_refl i) hi
    rw [h1, h2]
    dsimp only
    have harg : (Option.elim (some m) (2 * fsVal i p + fsVal (d - i) (p - 1))
        (fun current => Nat.min (2 * fsVal i p + fsVal (d - i) (p - 1)) current)) =
        Nat.min (fsCand d p i) m := rfl
    rw [harg]
    obtain ⟨r, hr, hrm, hror, hrall⟩ := ih (i + 1) (Nat.min (fsCand d p i) m) (by omega)
      (fun k hk1 hk2 => hall k (by omega) hk2)
    refine ⟨r, hr, le_trans hrm (Nat.min_le_right _ _), ?_, ?_⟩
    · rcases hror with h | ⟨k, hk1, hk2, hk3⟩
      · rcases Nat.le_total (fsCand d p i) m with hle | hle
        · right
          refine ⟨i, le_refl i, hi, ?_⟩
          rw [h]
          show (if fsCand d p i ≤ m then fsCand d p i else m) = fsCand d p i
          rw [if_pos hle]
        · left
          rw [h]
          show (if fsCand d p i ≤ m then fsCand d p i else m) = m
          by_cases hc : fsCand d p i ≤ m
          · rw [if_pos hc]
            omega
          · rw [if_neg hc]
      · right
        exact ⟨k, by omega, hk2, hk3⟩
    · intro k hik hkd
      rcases Nat.eq_or_lt_of_le hik with heq | hlt
      · rw [← heq]
        exact le_trans hrm (Nat.min_le_left _ _)
      · exact hrall k (by omega) hkd

theorem fsLoop_none_spec (d p : Nat) (hp : 0 < p) (hd : 1 ≤ d)
    (hall : ∀ k, k < d → frame_stewart k p = some (fsVal k p) ∧
      frame_stewart (d - k) (p - 1) = some (fsVal (d - k) (p - 1))) :
    ∃ r, fsLoop d p hp 0 none = some r ∧ (∃ k, k < d ∧ r = fsCand d p k) ∧
      ∀ k, k < d → r ≤ fsCand d p k := by
  have h0 : 0 < d := hd
  rw [fsLoop_step d p hp 0 none h0]
  obtain ⟨h1, h2⟩ := hall 0 h0
  rw [h1, h2]
  dsimp only
  have harg : (Option.elim (none : Option Nat) (2 * fsVal 0 p + fsVal (d - 0) (p - 1))
      (fun current => Nat.min (2 * fsVal 0 p + fsVal (d - 0) (p - 1)) current)) =
      fsCand d p 0 := rfl
  rw [harg]
  obtain ⟨r, hr, hrm, hror, hrall⟩ := fsLoop_spec d p hp (d - 1) 1 (fsCand d p 0) (by omega)
    (fun k hk1 hk2 => hall k hk2)
  refine ⟨r, hr, ?_, ?_⟩
  · rcases hror with h | ⟨k, _, hk2, hk3⟩
    · exact ⟨0, h0, h⟩
    · exact ⟨k, hk2, hk3⟩
  · intro k hkd
    cases k with
    | zero => exact hrm
    | succ j => exact hrall (j + 1) (by omega) hkd

theorem fs_total : ∀ p, 3 ≤ p → ∀ d, ∃ v, frame_stewart d p = some v := by
  intro p
  induction p using Nat.strong_induction_on with
  | _ p ihp =>
    intro hp3 d
    induction d using Nat.strong_induction_on with
    | _ d ihd =>
      rcases Nat.lt_or_ge p 4 with h4 | h4
      · have hp : p = 3 := by omega
        subst hp
        exact ⟨2 ^ d - 1, fs_three d⟩
      · match d, ihd with
        | 0, _ => exact ⟨0, fs_zero p⟩
        | 1, _ => exact ⟨1, by rw [fs_one, if_pos (by omega)]⟩
        | d2 + 2, ihd =>
          have hall : ∀ k, k < d2 + 2 → frame_stewart k p = some (fsVal k p) ∧
              frame_stewart (d2 + 2 - k) (p - 1) = some (fsVal (d2 + 2 - k) (p - 1)) := by
            intro k hk
            exact ⟨fs_some_val (ihd k hk),
              fs_some_val (ihp (p - 1) (by omega) (by omega) (d2 + 2 - k))⟩
          obtain ⟨r, hr, _, _⟩ := fsLoop_none_spec (d2 + 2) p (by omega) (by omega) hall
          refine ⟨r, ?_⟩
          rw [fs_big (d2 + 2) p (by omega) h4]
          exact hr

theorem fs_char_big (d p : Nat) (hd : 1 ≤ d) (hp : 3 < p) :
    ∃ r, frame_stewart d p = some r ∧ (∃ k, k < d ∧ r = fsCand d p k) ∧
      ∀ k, k < d → r ≤ fsCand d p k := by
  have hall : ∀ k, k < d → frame_stewart k p = some (fsVal k p) ∧
      frame_stewart (d - k) (p - 1) = some (fsVal (d - k) (p - 1)) := by
    intro k hk
    exact ⟨fs_some_val (fs_total p (by omega) k),
      fs_some_val (fs_total (p - 1) (by omega) (d - k))⟩
  match d with
  | 1 =>
    have hv0 : fsVal 0 p = 0 := by
      unfold fsVal
      rw [fs_zero]
      rfl
    have hv1 : fsVal 1 (p - 1) = 1 := by
      unfold fsVal
      rw [fs_one, if_pos (by omega)]
      rfl
    have hcand : fsCand 1 p 0 = 1 := by
      unfold fsCand
      rw [hv0, hv1]
    refine ⟨1, by rw [fs_one, if_pos (by omega)], ⟨0, by omega, hcand.symm⟩, ?_⟩
    intro k hk
    have hk0 : k = 0 := by omega
    rw [hk0, hcand]
  | d2 + 2 =>
    obtain ⟨r, hr, hex, hle⟩ := fsLoop_none_spec (d2 + 2) p (by omega) (by omega) hall
    refine ⟨r, ?_, hex, hle⟩
    rw [fs_big (d2 + 2) p (by omega) hp]
    exact hr

theorem fs_eq_inf (d p : Nat) (hd : 0 < d) (hp : 3 < p) :
    frame_stewart d p =
      some ((Finset.range d).inf' (Finset.nonempty_range_iff.mpr (by omega)) (fsCand d p)) := by
  obtain ⟨r, hr, ⟨k, hk, hkc⟩, hle⟩ := fs_char_big d p hd hp
  rw [hr]
  congr 1
  apply le_antisymm
  · rw [Finset.le_inf'_iff]
    intro b hb
    exact hle b (Finset.mem_range.mp hb)
  · have hmem : k ∈ Finset.range d := Finset.mem_range.mpr hk
    calc (Finset.range d).inf' (Finset.nonempty_range_iff.mpr (by omega)) (fsCand d p)
        ≤ fsCand d p k := Finset.inf'_le _ hmem
      _ = r := hkc.symm

/-- C3: `frame_stewart` matches the Frame–Stewart reference definition:
`none` (impossible) when `poles < 3` with more than one disk; `some 0`
for zero disks; the closed form `2 ^ disks - 1` for three poles; for
more than three poles the minimum over `k < disks` of
`2 * T(k, poles) + T(disks - k, poles - 1)`; in particular
`frame_stewart 2 4 = some 3`. -/
theorem frame_stewart_spec :
    (∀ d p, p < 3 → 1 < d → frame_stewart d p = none) ∧
    (∀ p, frame_stewart 0 p = some 0) ∧
    (∀ d, frame_stewart d 3 = some (2 ^ d - 1)) ∧
    (∀ d p, 3 < p → ∀ hd : 0 < d, frame_stewart d p =
      some ((Finset.range d).inf' (Finset.nonempty_range_iff.mpr (by omega)) (fsCand d p))) ∧
    frame_stewart 2 4 = some 3 := by
  refine ⟨fun d p hp hd => fs_small d p hp hd, fs_zero, fs_three, ?_, ?_⟩
  · intro d p hp hd
    exact fs_eq_inf d p hd hp
  · obtain ⟨r, hr, ⟨k, hk, hkc⟩, _⟩ := fs_char_big 2 4 (by omega) (by omega)
    have hv04 : fsVal 0 4 = 0 := by
      unfold fsVal
      rw [fs_zero]
      rfl
    have hv23 : fsVal 2 3 = 3 := by
      unfold fsVal
      rw [fs_three]
      decide
    have hv14 : fsVal 1 4 = 1 := by
      unfold fsVal
      rw [fs_one, if_pos (by omega)]
      rfl
    have hv13 : fsVal 1 3 = 1 := by
      unfold fsVal
      rw [fs_three]
      decide
    have hc0 : fsCand 2 4 0 = 3 := by
      unfold fsCand
      rw [hv04, hv23]
    have hc1 : fsCand 2 4 1 = 3 := by
      unfold fsCand
      rw [hv14, hv13]
    rw [hr]
    rcases k with _ | _ | k2
    · rw [hkc, hc0]
    · rw [hkc, hc1]
    · omega

/-- Witness for C3: two poles cannot relocate five disks. -/
theorem frame_stewart_spec_witness : frame_stewart 5 2 = none :=
  frame_stewart_spec.1 5 2 (by decide) (by decide)

/-- The `(disks, poles)` arguments of the direct recursive calls made by
`frame_stewart` at `(disks, poles)`, read off the source: only the
`poles > 3` branch recurses, calling `frame_stewart(i, poles)` and
`frame_stewart(disks - i, poles - 1)` for every `i` in `0..disks`. -/
def frame_stewart_calls (disks poles : Nat) : List (Nat × Nat) :=
  if disks = 0 then []
  else if disks = 1 then []
  else if poles = 3 then []
  else if 3 < poles then
    (List.range disks).flatMap (fun i => [(i, poles), (disks - i, poles - 1)])
  else []

/-- C7 counterexample: at `(disks, poles) = (2, 4)` the source makes the
recursive call `frame_stewart(2, 3)` (the `i = 0` split), whose disks
argument does not strictly decrease. -/
theorem frame_stewart_disk_decrease_counterexample :
    (2, 3) ∈ frame_stewart_calls 2 4 ∧ ¬((2 : Nat) < 2) := by
  constructor
  · decide
  · decide

/-- C7 (amended): `frame_stewart` is a total function — the recursion is
well-founded because every direct recursive call strictly decreases the
pole count, or keeps it and strictly decreases the disk count
(lexicographic measure `(poles, disks)`). -/
theorem frame_stewart_total_and_measure :
    (∀ d p, ∃ v, frame_stewart d p = v) ∧
    (∀ d p c, c ∈ frame_stewart_calls d p → c.2 < p ∨ (c.2 = p ∧ c.1 < d)) := by
  constructor
  · exact fun d p => ⟨frame_stewart d p, rfl⟩
  · intro d p c hc
    unfold frame_stewart_calls at hc
    by_cases h0 : d = 0
    · rw [if_pos h0] at hc
      simp at hc
    rw [if_neg h0] at hc
    by_cases h1 : d = 1
    · rw [if_pos h1] at hc
      simp at hc
    rw [if_neg h1] at hc
    by_cases h3 : p = 3
    · rw [if_pos h3] at hc
      simp at hc
    rw [if_neg h3] at hc
    by_cases h4 : 3 < p
    · rw [if_pos h4] at hc
      rw [List.mem_flatMap] at hc
      obtain ⟨i, hi, hmem⟩ := hc
      rw [List.mem_range] at hi
      rcases List.mem_cons.mp hmem with hcc | hcc
      · subst hcc
        exact Or.inr ⟨rfl, hi⟩
      · rw [List.mem_singleton] at hcc
        subst hcc
        exact Or.inl (by omega)
    · rw [if_neg h4] at hc
      simp at hc

/-- Witness for C7's amended theorem at the concrete call
`(2, 3) ∈ frame_stewart_calls 2 4`: its pole count strictly decreases. -/
theorem frame_stewart_total_and_measure_witness :
    (2, 3) ∈ frame_stewart_calls 2 4 ∧ ((3 : Nat) < 4 ∨ ((3 : Nat) = 4 ∧ (2 : Nat) < 2)) := by
  constructor
  · decide
  · exact frame_stewart_total_and_measure.2 2 4 (2, 3) (by decide)

/-- `Header` from `src/highscores.rs` lines 13-20. -/
structure Header where
  poles : Nat
  disks : Nat
  blindfold : Bool
  illegal_moves : Bool
  start_pole : Nat
  end_pole : Option Nat
deriving DecidableEq

/-- `Score` from `src/highscores.rs` lines 22-28: run duration, wall
clock completion timestamp (`DateTime<Utc>` modelled as an integer) and
the recorded move sequence. -/
structure Score where
  time : Nat
  date : Int
  moves : List MoveEntry
deriving DecidableEq

/-- `PlayerKind` from `src/play.rs` lines 9-15. -/
inductive PlayerKind where
  | Human
  | Bot
  | Replay (score : Score) (idx : Nat)
deriving DecidableEq

/-- `GameState` as used throughout `src/play.rs` and `src/util.rs`
(the `enum GameState` in `src/main.rs` is a stale snapshot of the same
type): `Playing` carries the run's start instant, `Finished` the run's
duration, `PreReset` is the one-tick settle state. -/
inductive GameState where
  | Reset
  | Playing (start : Nat)
  | Finished (duration : Nat)
  | PreReset
deriving DecidableEq

/-- The engine-relevant fields of `HanoiApp`.  The struct declaration in
`src/main.rs` is a stale snapshot, so the fields and their types are
read off the uses in `src/play.rs`, `src/util.rs` and
`src/highscores.rs`.  `highscores` models `AHashMap<Header, Vec<Score>>`
as a total function returning `[]` for absent keys, which is exactly
what `entry(header).or_insert(Vec::new())` provides. -/
structure HanoiApp where
  hanoi : HanoiGame
  player : PlayerKind
  state : GameState
  moves : Nat
  undo_index : Nat
  reset_on_invalid_move : Bool
  blindfold : Bool
  highscores : Header → List Score

/-- `HanoiApp::soft_reset` (`src/util.rs` lines 19-24). -/
def HanoiApp.soft_reset (app : HanoiApp) : HanoiApp :=
  { app with hanoi := app.hanoi.reset, state := GameState.PreReset, player := PlayerKind.Human, moves := 0 }

/-- `HanoiApp::full_move` (`src/play.rs` lines 18-32), with
`Instant::now()` passed in as `now` and `time.elapsed()` therefore
`now - time`.  No-op while finished; on a successful shift it starts the
run clock if in `Reset`, bumps the move counter, and appends
`(elapsed, from, to)` to the history while `Playing`; on a failed shift
it soft-resets iff `reset_on_invalid_move` is set. -/
def HanoiApp.full_move (app : HanoiApp) (now src dst : Nat) : HanoiApp :=
  match app.state with
  | GameState.Finished _ => app
  | _ =>
    match app.hanoi.shift src dst with
    | (ok, h) =>
      let app0 : HanoiApp := { app with hanoi := h }
      if ok then
        let app1 : HanoiApp :=
          if app0.state = GameState.Reset then { app0 with state := GameState.Playing now } else app0
        let app2 : HanoiApp := { app1 with moves := app1.moves + 1 }
        match app2.state with
        | GameState.Playing time =>
          { app2 with hanoi := { app2.hanoi with moves_history := app2.hanoi.moves_history ++ [(now - time, src, dst)] } }
        | _ => app2
      else
        if app0.reset_on_invalid_move then app0.soft_reset else app0

/-- `HanoiApp::undo_move` (`src/play.rs` lines 88-93):
`undo_index.checked_sub(1)` guards the cursor, the history entry is
looked up, the inverse move is applied through `full_move`, and then the
cursor is decremented. -/
def HanoiApp.undo_move (app : HanoiApp) (now : Nat) : HanoiApp :=
  match app.undo_index with
  | 0 => app
  | i + 1 =>
    match app.hanoi.moves_history[i]? with
    | some (_, src, dst) => { (app.full_move now dst src) with undo_index := i }
    | none => app

/-- C8: `undo_move` with cursor `i + 1` and an existing history entry at
`i` applies the inverse of that entry (destination and source swapped)
through the normal `full_move`/`shift` path and decrements the cursor by
exactly one; with cursor `0` it is a no-op. -/
theorem undo_move_spec (app : HanoiApp) (now : Nat) :
    (app.undo_index = 0 → app.undo_move now = app) ∧
    (∀ i t src dst, app.undo_index = i + 1 →
      app.hanoi.moves_history[i]? = some (t, src, dst) →
      app.undo_move now = { (app.full_move now dst src) with undo_index := i }) := by
  constructor
  · intro h
    unfold HanoiApp.undo_move
    rw [h]
  · intro i t src dst hidx hget
    unfold HanoiApp.undo_move
    rw [hidx]
    dsimp only
    rw [hget]

/-- Witness for C8: a mid-run app with one recorded move undoes it via
the swapped `full_move`, and an app with cursor 0 is unchanged. -/
theorem undo_move_spec_witness :
    (let h0 : HanoiGame :=
      { poles := [[3, 2], [], [1]] ++ List.replicate 13 [],
        poles_count := 3, disks_count := 3, start_pole := 1,
        end_pole := none, illegal_moves := false, moves_history := [(0, 0, 2)] }
     let app : HanoiApp :=
      { hanoi := h0, player := PlayerKind.Human, state := GameState.Playing 0,
        moves := 1, undo_index := 1, reset_on_invalid_move := false,
        blindfold := false, highscores := fun _ => [] }
     app.undo_move 5 = { (app.full_move 5 2 0) with undo_index := 0 } ∧
     ({ app with undo_index := 0 }).undo_move 5 = { app with undo_index := 0 }) := by
  constructor
  · exact (undo_move_spec _ 5).2 0 0 0 2 rfl rfl
  · exact (undo_move_spec _ 5).1 rfl

/-- `HanoiApp::get_current_header` (`src/highscores.rs` lines 31-40). -/
def HanoiApp.get_current_header (app : HanoiApp) : Header :=
  { poles := app.hanoi.poles_count, disks := app.hanoi.disks_count,
    blindfold := app.blindfold, illegal_moves := app.hanoi.illegal_moves,
    start_pole := app.hanoi.start_pole, end_pole := app.hanoi.end_pole }

/-- The ordered insert of `HanoiApp::save_score` (`src/highscores.rs`
lines 55-59): scan for the first existing entry whose time is strictly
greater than the new score's and insert before it, else append. -/
def insertScore (score : Score) (entry : List Score) : List Score :=
  match (entry.enum.find? (fun p => decide (score.time < p.2.time))) with
  | some (i, _) => List.insertIdx i score entry
  | none => entry ++ [score]

/-- `HanoiApp::save_score` (`src/highscores.rs` lines 46-60), with
`Utc::now()` passed in as `wallNow` (so `date = wallNow - duration`). -/
def HanoiApp.save_score (app : HanoiApp) (duration : Nat) (wallNow : Int) : HanoiApp :=
  let header := app.get_current_header
  let score : Score := { time := duration, date := wallNow - duration, moves := app.hanoi.moves_history }
  { app with highscores := fun h => if h = header then insertScore score (app.highscores header) else app.highscores h }

theorem insertScore_nil (sc : Score) : insertScore sc [] = [sc] := rfl

theorem find_enumFrom_succ (sc : Score) : ∀ (l : List Score) (n : Nat),
    (List.enumFrom (n + 1) l).find? (fun p => decide (sc.time < p.2.time)) =
      ((List.enumFrom n l).find? (fun p => decide (sc.time < p.2.time))).map
        (fun q => (q.1 + 1, q.2)) := by
  intro l
  induction l with
  | nil => intro n; rfl
  | cons a l ih =>
    intro n
    rw [List.enumFrom_cons, List.enumFrom_cons]
    by_cases h : sc.time < a.time
    · rw [List.find?_cons_of_pos _ (by simpa using h), List.find?_cons_of_pos _ (by simpa using h)]
      rfl
    · rw [List.find?_cons_of_neg _ (by simpa using h), List.find?_cons_of_neg _ (by simpa using h)]
      exact ih (n + 1)

theorem insertScore_cons (sc a : Score) (l : List Score) :
    insertScore sc (a :: l) =
      if sc.time < a.time then sc :: a :: l else a :: insertScore sc l := by
  unfold insertScore
  rw [List.enum_cons]
  simp only [List.enum]
  by_cases h : sc.time < a.time
  · rw [if_pos h]
    rw [List.find?_cons_of_pos _ (by simpa using h)]
    rfl
  · rw [if_neg h]
    rw [List.find?_cons_of_neg _ (by simpa using h)]
    have hfsp := find_enumFrom_succ sc l 0
    norm_num at hfsp
    rw [hfsp]
    cases hres : (List.enumFrom 0 l).find? (fun p => decide (sc.time < p.2.time)) with
    | none => rfl
    | some q =>
      obtain ⟨qi, qs⟩ := q
      dsimp only [Option.map]
      rw [List.insertIdx_succ_cons]

theorem insertScore_eq_takeWhile_dropWhile (sc : Score) (l : List Score) :
    insertScore sc l =
      l.takeWhile (fun s => ! decide (sc.time < s.time)) ++
        sc :: l.dropWhile (fun s => ! decide (sc.time < s.time)) := by
  induction l with
  | nil => rw [insertScore_nil]; rfl
  | cons a l ih =>
    rw [insertScore_cons]
    by_cases h : sc.time < a.time
    · rw [if_pos h]
      rw [List.takeWhile_cons, List.dropWhile_cons]
      simp [h]
    · rw [if_neg h, ih]
      rw [List.takeWhile_cons, List.dropWhile_cons]
      simp [h]

/-- The score lists are kept ascending by time. -/
def sortedByTime (l : List Score) : Prop :=
  l.Pairwise (fun s t => s.time ≤ t.time)

theorem mem_insertScore {x sc : Score} {l : List Score} :
    x ∈ insertScore sc l ↔ x = sc ∨ x ∈ l := by
  rw [insertScore_eq_takeWhile_dropWhile]
  conv_rhs => rw [← List.takeWhile_append_dropWhile (fun s => ! decide (sc.time < s.time)) l]
  simp only [List.mem_append, List.mem_cons]
  tauto

theorem insertScore_sorted (sc : Score) (l : List Score) (h : sortedByTime l) :
    sortedByTime (insertScore sc l) := by
  induction l with
  | nil =>
    rw [insertScore_nil]
    exact List.pairwise_singleton _ _
  | cons a l ih =>
    obtain ⟨ha, hl⟩ := List.pairwise_cons.mp h
    rw [insertScore_cons]
    by_cases hlt : sc.time < a.time
    · rw [if_pos hlt]
      refine List.pairwise_cons.mpr ⟨?_, h⟩
      intro x hx
      rcases List.mem_cons.mp hx with rfl | hx2
      · exact Nat.le_of_lt hlt
      · exact Nat.le_trans (Nat.le_of_lt hlt) (ha x hx2)
    · rw [if_neg hlt]
      refine List.pairwise_cons.mpr ⟨?_, ih hl⟩
      intro x hx
      rcases mem_insertScore.mp hx with rfl | hx2
      · omega
      · exact ha x hx2

/-- Concrete 3-disk game used by the score-store examples. -/
def scoreGameW : HanoiGame :=
  { poles := [], poles_count := 3, disks_count := 3, start_pole := 1,
    end_pole := none, illegal_moves := false, moves_history := [] }

/-- The header of `scoreGameW` with no blindfold. -/
def scoreHeaderW : Header :=
  { poles := 3, disks := 3, blindfold := false, illegal_moves := false,
    start_pole := 1, end_pole := none }

/-- A different header (four poles), used to check other keys are kept. -/
def scoreHeaderW2 : Header :=
  { poles := 4, disks := 3, blindfold := false, illegal_moves := false,
    start_pole := 1, end_pole := none }

/-- App with an empty score store. -/
def scoreAppW : HanoiApp :=
  { hanoi := scoreGameW, player := PlayerKind.Human, state := GameState.Reset,
    moves := 0, undo_index := 0, reset_on_invalid_move := false,
    blindfold := false, highscores := fun _ => [] }

/-- App whose store already holds one score with time 2 (date tag 0). -/
def scoreAppTieW : HanoiApp :=
  { hanoi := scoreGameW, player := PlayerKind.Human, state := GameState.Reset,
    moves := 0, undo_index := 0, reset_on_invalid_move := false,
    blindfold := false,
    highscores := fun h => if h = scoreHeaderW then [{ time := 2, date := 0, moves := [] }] else [] }

/-- C5 counterexample: saving a second score with an equal time, the new
entry (date tag 8) lands *after* the existing equal-time entry (date tag
0), not before it as the claim states. -/
theorem save_score_tie_counterexample :
    (scoreAppTieW.save_score 2 10).highscores scoreHeaderW =
      [{ time := 2, date := 0, moves := [] }, { time := 2, date := 8, moves := [] }] ∧
    ([{ time := 2, date := 0, moves := [] }, { time := 2, date := 8, moves := [] }] : List Score) ≠
      [{ time := 2, date := 8, moves := [] }, { time := 2, date := 0, moves := [] }] := by
  constructor
  · decide
  · decide

/-- C5 (amended): `save_score` inserts the new score for the current
header before the first existing entry whose time is strictly greater —
equivalently, after every entry whose time is less than or equal —
otherwise appends; it leaves other headers unchanged and preserves
ascending-by-time order; a new equal-time entry therefore lands *after*
existing equal-time entries. -/
theorem save_score_spec (app : HanoiApp) (duration : Nat) (wallNow : Int) :
    (∀ hdr, hdr ≠ app.get_current_header →
      (app.save_score duration wallNow).highscores hdr = app.highscores hdr) ∧
    ((app.save_score duration wallNow).highscores app.get_current_header =
      (app.highscores app.get_current_header).takeWhile (fun s => ! decide (duration < s.time)) ++
        { time := duration, date := wallNow - duration, moves := app.hanoi.moves_history } ::
          (app.highscores app.get_current_header).dropWhile (fun s => ! decide (duration < s.time))) ∧
    (sortedByTime (app.highscores app.get_current_header) →
      sortedByTime ((app.save_score duration wallNow).highscores app.get_current_header)) := by
  refine ⟨?_, ?_, ?_⟩
  · intro hdr hne
    unfold HanoiApp.save_score
    dsimp only
    rw [if_neg hne]
  · unfold HanoiApp.save_score
    dsimp only
    rw [if_pos rfl]
    exact insertScore_eq_takeWhile_dropWhile _ _
  · intro hsorted
    unfold HanoiApp.save_score
    dsimp only
    rw [if_pos rfl]
    exact insertScore_sorted _ _ hsorted

/-- Witness for C5's amended theorem: inserting times 5, 2, 8, 2 into an
empty store yields stored times `[2, 2, 5, 8]` with the equal-time pair
in insertion order (date tags 18 then 38), the list stays sorted, and a
different header is untouched. -/
theorem save_score_spec_witness :
    ((((scoreAppW.save_score 5 10).save_score 2 20).save_score 8 30).save_score 2 40).highscores
        scoreHeaderW =
      [{ time := 2, date := 18, moves := [] }, { time := 2, date := 38, moves := [] },
        { time := 5, date := 5, moves := [] }, { time := 8, date := 22, moves := [] }] ∧
    sortedByTime (((((scoreAppW.save_score 5 10).save_score 2 20).save_score 8 30).save_score 2 40).highscores
      scoreHeaderW) ∧
    ((((scoreAppW.save_score 5 10).save_score 2 20).save_score 8 30).save_score 2 40).highscores
        scoreHeaderW2 =
      (((scoreAppW.save_score 5 10).save_score 2 20).save_score 8 30).highscores scoreHeaderW2 := by
  refine ⟨by decide, ?_, ?_⟩
  · exact (save_score_spec (((scoreAppW.save_score 5 10).save_score 2 20).save_score 8 30) 2 40).2.2
      (by unfold sortedByTime; decide)
  · exact (save_score_spec (((scoreAppW.save_score 5 10).save_score 2 20).save_score 8 30) 2 40).1
      scoreHeaderW2 (by decide)

/-- The consecutive deltas of `consistency_score` (`src/util.rs` line
84): `tuple_windows` pairs each timestamp with the next, and
`saturating_sub` clamps each difference at zero, so a delta is never
negative.  `Duration::as_secs_f64` is modelled as the identity into ℝ. -/
def wdeltas (moves : List ℝ) : List ℝ :=
  (moves.zip moves.tail).map (fun p => max (p.2 - p.1) 0)

/-- `sum / len` (`src/util.rs` line 89). -/
noncomputable def meanOf (l : List ℝ) : ℝ :=
  l.sum / l.length

/-- Population standard deviation (`src/util.rs` lines 91-95). -/
noncomputable def stdDevOf (l : List ℝ) : ℝ :=
  Real.sqrt ((l.map (fun difference => (difference - meanOf l) ^ 2)).sum / l.length)

/-- `consistency_score` (`src/util.rs` lines 83-99), with `f64`
modelled exactly over ℝ ∪ {NaN}: `none` is NaN, `some x` the finite
value `x`.  All inputs to the arithmetic are finite and the deltas are
nonnegative, so the only IEEE special cases live in
`std_dev / mean` with `mean = 0`: `0 / 0` is NaN (then
`1.0 - NaN = NaN` and `clamp` returns NaN), while `pos / 0 = +inf`
makes the raw score `-inf`, which `clamp(0.0, 1.0)` sends to `0`.
With a nonzero mean everything is ordinary real arithmetic and
`raw_score.clamp(0.0, 1.0)` is `min (max raw 0) 1`. -/
noncomputable def consistency_score (moves : List ℝ) : Option ℝ :=
  if (wdeltas moves).length ≤ 1 then some 1
  else if meanOf (wdeltas moves) = 0 then
    (if stdDevOf (wdeltas moves) = 0 then none else some 0)
  else some (min (max (1 - stdDevOf (wdeltas moves) / meanOf (wdeltas moves)) 0) 1)

theorem sum_zero_of_nonneg : ∀ (l : List ℝ), (∀ x ∈ l, 0 ≤ x) → l.sum = 0 →
    ∀ x ∈ l, x = 0 := by
  intro l
  induction l with
  | nil => intro _ _ x hx; simp at hx
  | cons a l ih =>
    intro hnn hsum x hx
    rw [List.sum_cons] at hsum
    have ha : 0 ≤ a := hnn a (List.mem_cons_self a l)
    have hl : 0 ≤ l.sum := List.sum_nonneg (fun y hy => hnn y (List.mem_cons_of_mem a hy))
    have ha0 : a = 0 := by linarith
    have hl0 : l.sum = 0 := by linarith
    rcases List.mem_cons.mp hx with rfl | hx2
    · exact ha0
    · exact ih (fun y hy => hnn y (List.mem_cons_of_mem a hy)) hl0 x hx2

theorem wdeltas_nonneg (moves : List ℝ) : ∀ x ∈ wdeltas moves, 0 ≤ x := by
  intro x hx
  unfold wdeltas at hx
  obtain ⟨p, _, rfl⟩ := List.mem_map.mp hx
  exact le_max_right _ _

/-- C6 counterexample: three equal timestamps give the two deltas
`[0, 0]`, a zero mean, and a `0 / 0` division — the result is NaN
(modelled `none`), not a value in `[0, 1]`. -/
theorem consistency_score_nan_counterexample :
    consistency_score [1, 1, 1] = none := by
  have hwd : wdeltas [(1 : ℝ), 1, 1] = [0, 0] := by
    unfold wdeltas
    norm_num [List.zip]
  have hm : meanOf [(0 : ℝ), 0] = 0 := by
    unfold meanOf
    norm_num
  have hs : stdDevOf [(0 : ℝ), 0] = 0 := by
    unfold stdDevOf
    rw [hm]
    norm_num
  unfold consistency_score
  rw [hwd]
  rw [if_neg (by norm_num)]
  rw [if_pos hm, if_pos hs]

/-- C6 (amended): `consistency_score` returns `1.0` when fewer than two
deltas exist; with two or more deltas and a nonzero mean it returns
`1 - stddev / mean` clamped to `[0, 1]`, which does lie in `[0, 1]`;
but when all deltas are zero (zero mean — e.g. all-equal timestamps)
the `0 / 0` makes the result NaN (`none`), so the claim's "never NaN"
fails exactly there. -/
theorem consistency_score_spec (moves : List ℝ) :
    ((wdeltas moves).length ≤ 1 → consistency_score moves = some 1) ∧
    (1 < (wdeltas moves).length → meanOf (wdeltas moves) ≠ 0 →
      ∃ x, consistency_score moves = some x ∧ 0 ≤ x ∧ x ≤ 1 ∧
        x = min (max (1 - stdDevOf (wdeltas moves) / meanOf (wdeltas moves)) 0) 1) ∧
    (1 < (wdeltas moves).length → meanOf (wdeltas moves) = 0 →
      consistency_score moves = none) := by
  refine ⟨?_, ?_, ?_⟩
  · intro h
    unfold consistency_score
    rw [if_pos h]
  · intro hlen hmean
    unfold consistency_score
    rw [if_neg (by omega), if_neg hmean]
    refine ⟨_, rfl, ?_, ?_, rfl⟩
    · exact le_min (le_max_right _ _) (by norm_num)
    · exact min_le_right _ _
  · intro hlen hmean
    unfold consistency_score
    rw [if_neg (by omega), if_pos hmean]
    have hlen0 : (wdeltas moves).length ≠ 0 := by omega
    have hsum : (wdeltas moves).sum = 0 := by
      unfold meanOf at hmean
      rcases div_eq_zero_iff.mp hmean with h | h
      · exact h
      · exact absurd (by exact_mod_cast h) hlen0
    have hall0 : ∀ x ∈ wdeltas moves, x = 0 :=
      sum_zero_of_nonneg _ (wdeltas_nonneg moves) hsum
    have hsq : ((wdeltas moves).map (fun difference => (difference - meanOf (wdeltas moves)) ^ 2)).sum = 0 := by
      apply List.sum_eq_zero
      intro y hy
      obtain ⟨dd, hdd, rfl⟩ := List.mem_map.mp hy
      rw [hall0 dd hdd, hmean]
      norm_num
    have hstd : stdDevOf (wdeltas moves) = 0 := by
      unfold stdDevOf
      rw [hsq]
      norm_num
    rw [if_pos hstd]

/-- Witness for C6's amended theorem: a single timestamp has no deltas,
so the score is the defined `1.0`. -/
theorem consistency_score_spec_witness : consistency_score [5] = some 1 := by
  exact (consistency_score_spec [(5 : ℝ)]).1 (by norm_num [wdeltas])
